import Mathlib

/-!
Verification development for the contact merge & deduplication pipeline
(`merge_contacts.py`).

The embedding models Python strings as `List Char`, JSON values as the
inductive `Json` below, pandas data-frame rows as association lists from
column name to `Json` value (a missing value, pandas `NaN`, is `Json.null`),
and the external generation service as an explicit function parameter from
a merge group's cleaned rows to an optional response text.  The Python
standard-library `json.loads` is modelled by the executable recursive
parser `jparse`; numbers are modelled as integers (the pipeline never
relies on float payloads) and `\u` escapes are not modelled.  All
definitions are executable structural recursions so concrete runs reduce
by `rfl`.
-/

abbrev Str := List Char

/-- Model of a parsed JSON value (the possible results of `json.loads`).
Objects are association lists in insertion order with unique keys, as
built by Python's `dict`. -/
inductive Json where
  | null
  | bool (b : Bool)
  | num (n : Int)
  | str (s : Str)
  | arr (elts : List Json)
  | obj (fields : List (Str × Json))
deriving Repr

/-- `true` exactly on `Json.obj`, modelling Python's `isinstance(x, dict)`. -/
def Json.isObj : Json → Bool
  | .obj _ => true
  | _ => false

/-- The character `"\x7b"`. -/
def lbrace : Char := Char.ofNat 123

/-- The character `"\x7d"`. -/
def rbrace : Char := Char.ofNat 125

/-- The backtick character used by code fences. -/
def btick : Char := Char.ofNat 96

/-- JSON inter-token whitespace (the set accepted by `json.loads`). -/
def isWsJson (c : Char) : Bool :=
  c == ' ' || c == '\t' || c == '\n' || c == '\r'

/-- Python whitespace as matched by `\s` in `re` and stripped by `str.strip`
(ASCII part): space, tab, newline, carriage return, vertical tab, form feed. -/
def isWsPy (c : Char) : Bool :=
  c == ' ' || c == '\t' || c == '\n' || c == '\r' ||
  c == Char.ofNat 11 || c == Char.ofNat 12

/-- Drop leading JSON whitespace. -/
def skipWs (s : Str) : Str := s.dropWhile isWsJson

/-- ASCII lower-casing of one character, modelling `str.lower` on the
character sets the pipeline manipulates. -/
def toLowerCh (c : Char) : Char :=
  if 'A' ≤ c ∧ c ≤ 'Z' then Char.ofNat (c.toNat + 32) else c

/-- Parse the body of a JSON string after the opening quote, returning the
decoded characters and the remaining input after the closing quote.
Escapes `\" \\ \/ \n \t \r \b \f` are decoded; `\u` escapes are not
modelled. -/
def parseStringBody : Str → Option (Str × Str)
  | [] => none
  | c :: rest =>
    if c = '"' then some ([], rest)
    else if c = '\\' then
      match rest with
      | [] => none
      | e :: rest2 =>
        let esc : Option Char :=
          if e = '"' then some '"'
          else if e = '\\' then some '\\'
          else if e = '/' then some '/'
          else if e = 'n' then some '\n'
          else if e = 't' then some '\t'
          else if e = 'r' then some '\r'
          else if e = 'b' then some (Char.ofNat 8)
          else if e = 'f' then some (Char.ofNat 12)
          else none
        match esc with
        | none => none
        | some ce => (parseStringBody rest2).map (fun p => (ce :: p.1, p.2))
    else (parseStringBody rest).map (fun p => (c :: p.1, p.2))

/-- Accumulate a digit string into a natural number. -/
def digitsToNat : List Char → Nat → Nat
  | [], acc => acc
  | c :: rest, acc => digitsToNat rest (acc * 10 + (c.toNat - 48))

/-- Parse a non-empty run of decimal digits. -/
def parseNatNum (s : Str) : Option (Nat × Str) :=
  let p := s.span Char.isDigit
  if p.1 = [] then none else some (digitsToNat p.1 0, p.2)

/-- Insert a key/value pair into an object under construction with Python
`dict` semantics: an existing key keeps its position and is updated, a new
key is appended. -/
def objInsert (m : List (Str × Json)) (k : Str) (v : Json) : List (Str × Json) :=
  if m.any (fun kv => kv.1 = k) then
    m.map (fun kv => if kv.1 = k then (k, v) else kv)
  else m ++ [(k, v)]

mutual

/-- Fuel-indexed recursive-descent parser for one JSON value, modelling the
grammar accepted by `json.loads`.  Returns the value and the unconsumed
remainder. -/
def parseVal : Nat → Str → Option (Json × Str)
  | 0, _ => none
  | fuel + 1, s =>
    match skipWs s with
    | [] => none
    | c :: rest =>
      if c = lbrace then
        match skipWs rest with
        | c2 :: rest2 =>
          if c2 = rbrace then some (Json.obj [], rest2)
          else parseMembers fuel rest []
        | [] => none
      else if c = '[' then
        match skipWs rest with
        | c2 :: rest2 =>
          if c2 = ']' then some (Json.arr [], rest2)
          else parseElems fuel rest []
        | [] => none
      else if c = '"' then
        (parseStringBody rest).map (fun p => (Json.str p.1, p.2))
      else if c = 't' then
        if rest.take 3 = ['r', 'u', 'e'] then some (Json.bool true, rest.drop 3) else none
      else if c = 'f' then
        if rest.take 4 = ['a', 'l', 's', 'e'] then some (Json.bool false, rest.drop 4) else none
      else if c = 'n' then
        if rest.take 3 = ['u', 'l', 'l'] then some (Json.null, rest.drop 3) else none
      else if c = '-' then
        (parseNatNum rest).map (fun p => (Json.num (-(p.1 : Int)), p.2))
      else if c.isDigit then
        (parseNatNum (c :: rest)).map (fun p => (Json.num (p.1 : Int), p.2))
      else none

/-- Parse the members of a JSON object after its opening brace (non-empty
object case). -/
def parseMembers : Nat → Str → List (Str × Json) → Option (Json × Str)
  | 0, _, _ => none
  | fuel + 1, s, acc =>
    match skipWs s with
    | c :: rest =>
      if c = '"' then
        match parseStringBody rest with
        | none => none
        | some (k, r1) =>
          match skipWs r1 with
          | c2 :: r2 =>
            if c2 = ':' then
              match parseVal fuel r2 with
              | none => none
              | some (v, r3) =>
                match skipWs r3 with
                | c3 :: r4 =>
                  if c3 = ',' then parseMembers fuel r4 (objInsert acc k v)
                  else if c3 = rbrace then some (Json.obj (objInsert acc k v), r4)
                  else none
                | [] => none
            else none
          | [] => none
      else none
    | [] => none

/-- Parse the elements of a JSON array after its opening bracket (non-empty
array case). -/
def parseElems : Nat → Str → List Json → Option (Json × Str)
  | 0, _, _ => none
  | fuel + 1, s, acc =>
    match parseVal fuel s with
    | none => none
    | some (v, r1) =>
      match skipWs r1 with
      | c :: r2 =>
        if c = ',' then parseElems fuel r2 (acc ++ [v])
        else if c = ']' then some (Json.arr (acc ++ [v]), r2)
        else none
      | [] => none

end

/-- Model of `json.loads`: parse one JSON value and require that only
whitespace follows; otherwise fail.  The fuel `length + 1` is enough for
any input because every recursive step consumes input. -/
def jparse (text : Str) : Option Json :=
  match parseVal (text.length + 1) text with
  | some (v, rest) => if skipWs rest = [] then some v else none
  | none => none

/-- Does `s` begin, after greedily skipping `\s*`, with three backticks?
This decides whether the `\s*` + closing-fence tail of the fence regex in
`safe_json_loads` matches at `s`.  The greedy `\s*` is deterministic here
because a backtick is not whitespace. -/
def fenceTail (s : Str) : Bool :=
  (s.dropWhile isWsPy).take 3 = [btick, btick, btick]

/-- The lazy `\{.*?\}` part of the fence regex, positioned just after the
opening brace: find the first closing brace whose suffix matches
`\s*` + closing fence, and return the whole brace-delimited group.
`acc` holds (reversed) the characters consumed since the opening brace. -/
def lazyClose : Str → Str → Option Str
  | [], _ => none
  | c :: rest, acc =>
    if c = rbrace then
      if fenceTail rest then some (lbrace :: (acc.reverse ++ [rbrace]))
      else lazyClose rest (rbrace :: acc)
    else lazyClose rest (c :: acc)

/-- Consume the optional case-insensitive `json` tag of the fence regex
(the greedy `(?:json)?`). -/
def fenceAfterTag (r : Str) : Str :=
  if (r.take 4).map toLowerCh = "json".toList then r.drop 4 else r

/-- Attempt to match the fence regex of `safe_json_loads` anchored at the
start of `s`: three backticks, an optional case-insensitive `json` tag,
`\s*`, then a lazily matched brace-delimited group followed by `\s*` and a
closing fence.  When the tag is present, not consuming it cannot lead to a
match (the tag's first letter is neither whitespace nor a brace), so the
optional group needs no backtracking. -/
def tryFenceAt (s : Str) : Option Str :=
  if s.take 3 = [btick, btick, btick] then
    match (fenceAfterTag (s.drop 3)).dropWhile isWsPy with
    | c :: rest => if c = lbrace then lazyClose rest [] else none
    | [] => none
  else none

/-- Model of `re.search` with the fence pattern of `safe_json_loads`:
try every start position left to right and return the first captured
group. -/
def fenceSearch : Str → Option Str
  | [] => none
  | c :: rest =>
    match tryFenceAt (c :: rest) with
    | some g => some g
    | none => fenceSearch rest

/-- The brace-depth scan of `safe_json_loads` (source lines 150-171): one
step per character; the state is `none` outside any candidate (empty
stack) and `some (acc, depth)` inside a candidate, where `acc` holds
(reversed) the characters consumed since the recorded start and `depth`
the brace-stack height.  On returning to depth zero the candidate span is
parsed; on a failed parse the start is discarded and scanning resumes. -/
def scanStep : Str → Option (Str × Nat) → Option Json
  | [], _ => none
  | c :: rest, none =>
    if c = lbrace then scanStep rest (some ([lbrace], 1)) else scanStep rest none
  | c :: rest, some (acc, d) =>
    if c = lbrace then scanStep rest (some (lbrace :: acc, d + 1))
    else if c = rbrace then
      if d = 1 then
        match jparse (acc.reverse ++ [rbrace]) with
        | some v => some v
        | none => scanStep rest none
      else scanStep rest (some (rbrace :: acc, d - 1))
    else scanStep rest (some (c :: acc, d))

/-- The whole brace-depth scan, started outside any candidate. -/
def braceScan (text : Str) : Option Json := scanStep text none

/-- Model of `safe_json_loads`: direct parse, then the first fenced block
(if its interior fails to parse the scan below still runs), then the
brace-depth scan. -/
def safe_json_loads (text : Str) : Option Json :=
  match jparse text with
  | some v => some v
  | none =>
    match fenceSearch text with
    | some inner =>
      match jparse inner with
      | some v => some v
      | none => braceScan text
    | none => braceScan text

/-- Word characters as matched by `\w` (ASCII part): alphanumerics and
underscore. -/
def isWordCh (c : Char) : Bool := c.isAlphanum || c = '_'

/-- Model of `str.strip`: drop leading and trailing whitespace. -/
def stripStr (s : Str) : Str :=
  ((s.dropWhile isWsPy).reverse.dropWhile isWsPy).reverse

/-- Model of `re.sub(r"\s+", " ", s)`: replace every maximal whitespace run
with a single space. -/
def collapseWs : Str → Str
  | [] => []
  | [c] => if isWsPy c then [' '] else [c]
  | c1 :: c2 :: rest =>
    if isWsPy c1 && isWsPy c2 then collapseWs (c2 :: rest)
    else (if isWsPy c1 then ' ' else c1) :: collapseWs (c2 :: rest)

/-- The string pipeline of `normalize_name` (source lines 115-124): strip,
lower-case, replace every character that is neither a word character nor
whitespace with a space, collapse whitespace runs, strip. -/
def normalizeStr (s : Str) : Str :=
  let t1 := stripStr s
  let t2 := t1.map toLowerCh
  let t3 := t2.map (fun c => if isWordCh c || isWsPy c then c else ' ')
  stripStr (collapseWs t3)

/-- Model of `normalize_name`: the dynamically typed argument is a cell
value; only actual strings are normalized, every non-string input
(`NaN`, `None`, numbers, lists, objects, booleans) yields the empty
string via the `isinstance(name, str)` guard. -/
def normalize_name (v : Json) : Str :=
  match v with
  | Json.str s => normalizeStr s
  | _ => []

/-- A data-frame row as an association list from column name to cell
value, in column order; `pd.NaN` is `Json.null`. -/
abbrev Dict := List (Str × Json)

/-- The helper grouping-key column added by `prepare_dataframe`. -/
def normalizedNameKey : Str := "normalized_name".toList

/-- The canonical full-name column. -/
def fullNameKey : Str := "FullName".toList

/-- First-occurrence lookup in an association list (rows and rename maps
have unique keys). -/
def alookup {α : Type} (k : Str) : List (Str × α) → Option α
  | [] => none
  | kv :: rest => if kv.1 = k then some kv.2 else alookup k rest

/-- A row's grouping key: the string stored in its `normalized_name`
column.  The column always holds a `normalize_name` result, hence a
string. -/
def rowKey (r : Dict) : Str :=
  match alookup normalizedNameKey r with
  | some (Json.str s) => s
  | _ => []

/-- Lexicographic string order by code point, as used by Python string
comparison and hence by pandas when sorting group keys. -/
def strLe : Str → Str → Bool
  | [], _ => true
  | _ :: _, [] => false
  | a :: as_, b :: bs => a.toNat < b.toNat || (a = b && strLe as_ bs)

/-- Insert a key into a `strLe`-sorted list of keys. -/
def insertKey (k : Str) : List Str → List Str
  | [] => [k]
  | k2 :: rest => if strLe k k2 then k :: k2 :: rest else k2 :: insertKey k rest

/-- Sort a list of keys ascending by `strLe` (insertion sort). -/
def sortKeys : List Str → List Str
  | [] => []
  | k :: rest => insertKey k (sortKeys rest)

/-- Model of `master.groupby("normalized_name", dropna=False)` iteration:
pandas sorts the distinct keys ascending (`sort=True` default) and each
group keeps its rows in original table order. -/
def groupByKey (master : List Dict) : List (Str × List Dict) :=
  (sortKeys (master.map rowKey).dedup).map
    (fun k => (k, master.filter (fun r => rowKey r = k)))

/-- Model of `build_prompt_for_group`: the prompt is a fixed instruction
text around the group's rows serialized without the helper
`normalized_name` key and with `NaN` sent as `null` (the identity here,
since `NaN` is already modelled as `Json.null`).  Because the fixed text
is an injective wrapper, the prompt is modelled by its variable payload:
the cleaned rows. -/
def build_prompt_for_group (rows : List Dict) : List Dict :=
  rows.map (fun r => r.filter (fun kv => kv.1 ≠ normalizedNameKey))

/-- Model of `call_ollama`: the transport (endpoint, HTTP status, request
exceptions) is the external function `svc` from the prompt payload to an
optional response text; `none` is any transport failure.  On a response,
the extractor `safe_json_loads` runs on the response text and its result
(possibly `none`) is returned. -/
def call_ollama (svc : List Dict → Option Str) (cleanedRows : List Dict) : Option Json :=
  match svc cleanedRows with
  | none => none
  | some text => safe_json_loads text

/-- Has the optional `MAX_GROUPS` testing cap been reached? -/
def capReached : Option Nat → Nat → Bool
  | none, _ => false
  | some n, cnt => n ≤ cnt

/-- The canonical merged row built from a successfully extracted object
(source lines 322-331): pop `normalized_name`, then append a fresh
`normalized_name` computed by normalizing the object's `FullName` value
(default empty string). -/
def mergeResultRow (kvs : Dict) : Dict :=
  let stripped := kvs.filter (fun kv => kv.1 ≠ normalizedNameKey)
  let fn : Json :=
    match alookup fullNameKey stripped with
    | some v => v
    | none => Json.str []
  stripped ++ [(normalizedNameKey, Json.str (normalize_name fn))]

/-- The group loop of `process_duplicates`: iterate the groups in order,
carrying `processed_count`; empty-key or singleton groups (and groups
beyond the cap) extend `unique_rows`, a successful merge appends one row
to `merged_rows`, any other outcome (transport failure, extraction
failure, non-dict result) extends `unique_rows` with the group's original
rows.  Returns `(unique_rows, merged_rows)`. -/
def processGroups (svc : List Dict → Option Str) (maxG : Option Nat) :
    List (Str × List Dict) → Nat → List Dict × List Dict
  | [], _ => ([], [])
  | (key, rows) :: gs, cnt =>
    if key = [] ∨ rows.length = 1 then
      let p := processGroups svc maxG gs cnt
      (rows ++ p.1, p.2)
    else if capReached maxG cnt then
      let p := processGroups svc maxG gs cnt
      (rows ++ p.1, p.2)
    else
      match call_ollama svc (build_prompt_for_group rows) with
      | some (Json.obj kvs) =>
        let p := processGroups svc maxG gs (cnt + 1)
        (p.1, mergeResultRow kvs :: p.2)
      | _ =>
        let p := processGroups svc maxG gs cnt
        (rows ++ p.1, p.2)

/-- Drop the helper grouping-key column from a row, modelling
`final_df.drop(columns=["normalized_name"])`. -/
def dropNormalizedName (r : Dict) : Dict :=
  r.filter (fun kv => kv.1 ≠ normalizedNameKey)

/-- Model of `process_duplicates`: empty input is returned as is;
otherwise the sorted groups are processed and the final table is
`unique_rows + merged_rows` with the helper column dropped.  The final
`FullName`-first column reordering of the source is a frame-level
presentation step that permutes columns uniformly and does not change any
record's field-to-value mapping, so it is not modelled at the record
level. -/
def process_duplicates (svc : List Dict → Option Str) (maxG : Option Nat)
    (master : List Dict) : List Dict :=
  match master with
  | [] => []
  | _ :: _ =>
    let p := processGroups svc maxG (groupByKey master) 0
    (p.1 ++ p.2).map dropNormalizedName

/-- The `FullName` source-column candidates of `standardize_columns`, in
priority order. -/
def fullnameCandidates : List Str :=
  ["fullname".toList, "full_name".toList, "name".toList, "full name".toList]

/-- The `common_maps` table of `standardize_columns`: unified column name
and its recognized variants. -/
def commonMaps : List (Str × List Str) :=
  [ ("job_title".toList, ["job title".toList, "title".toList, "position".toList, "jobtitle".toList])
  , ("department".toList, ["dept".toList, "division".toList])
  , ("company".toList, ["company_name".toList, "organization".toList, "organisation".toList,
      "employer".toList, "company name".toList])
  , ("address".toList, ["street".toList, "mailing address".toList, "fulladdress".toList,
      "full address".toList])
  , ("email".toList, ["email_address".toList, "email address".toList, "e-mail".toList,
      "mail".toList])
  , ("website".toList, ["site".toList, "url".toList, "web".toList, "web site".toList,
      "web url".toList])
  , ("mobile_number".toList, ["mobile".toList, "cell".toList, "cellphone".toList,
      "cell phone".toList, "phone mobile".toList, "mobile no".toList, "mobile_no".toList])
  , ("phone_number".toList, ["phone".toList, "telephone".toList, "tel".toList,
      "office number".toList, "office_number".toList])
  , ("country".toList, ["country_name".toList])
  , ("city".toList, ["town".toList]) ]

/-- Model of `col_map = {c.lower(): c for c in df.columns}`: a Python dict
comprehension keeps the last column for case-colliding names, so the
column list is reversed before building the first-match association
list. -/
def colMapOf (cols : List Str) : List (Str × Str) :=
  cols.reverse.map (fun c => (c.map toLowerCh, c))

/-- Insert with Python `dict` assignment semantics into a rename map. -/
def dinsert (k v : Str) (m : List (Str × Str)) : List (Str × Str) :=
  if m.any (fun kv => kv.1 = k) then
    m.map (fun kv => if kv.1 = k then (k, v) else kv)
  else m ++ [(k, v)]

/-- The first `FullName` candidate present in the column map, in priority
order, returning its original-cased source column. -/
def firstFullnameSrc (cm : List (Str × Str)) : Option Str :=
  fullnameCandidates.findSome? (fun cand => alookup cand cm)

/-- Build the rename dictionary of `standardize_columns`: the first
matching `FullName` candidate, then for each `common_maps` entry either
the unified name itself (case-standardized) or its first matching
variant. -/
def buildRenames (cols : List Str) : List (Str × Str) :=
  let cm := colMapOf cols
  let r0 :=
    match firstFullnameSrc cm with
    | some src => dinsert src fullNameKey []
    | none => []
  commonMaps.foldl (fun r entry =>
    match alookup (entry.1.map toLowerCh) cm with
    | some c => dinsert c entry.1 r
    | none =>
      match entry.2.findSome? (fun var => alookup var cm) with
      | some c => dinsert c entry.1 r
      | none => r) r0

/-- Apply a rename map to one column name, as `df.rename(columns=...)`
does per column. -/
def renameCol (renames : List (Str × Str)) (c : Str) : Str :=
  match alookup c renames with
  | some t => t
  | none => c

/-- Model of `standardize_columns` on a frame given as its column list and
rows (each row's keys are the columns, in order): an empty frame is
returned unchanged; otherwise columns are renamed through the rename map
and, when no column became `FullName`, a `FullName` column holding the
empty string is appended. -/
def standardize_columns (cols : List Str) (rows : List Dict) :
    List Str × List Dict :=
  match rows with
  | [] => (cols, rows)
  | _ :: _ =>
    let renames := buildRenames cols
    let cols2 := cols.map (renameCol renames)
    let rows2 := rows.map (fun r => r.map (fun kv => (renameCol renames kv.1, kv.2)))
    if cols2.any (fun c => c = fullNameKey) then (cols2, rows2)
    else (cols2 ++ [fullNameKey], rows2.map (fun r => r ++ [(fullNameKey, Json.str [])]))

/-- Brace-depth bookkeeping: does scanning `mid` from depth `d` keep the
brace depth at least one at every closing brace (never closing the
candidate inside `mid`)? -/
def midOk : Str → Nat → Bool
  | [], _ => true
  | c :: cs, d =>
    if c = lbrace then midOk cs (d + 1)
    else if c = rbrace then decide (2 ≤ d) && midOk cs (d - 1)
    else midOk cs d

/-- The brace depth after scanning `mid` from depth `d`. -/
def midDepth : Str → Nat → Nat
  | [], d => d
  | c :: cs, d =>
    if c = lbrace then midDepth cs (d + 1)
    else if c = rbrace then midDepth cs (d - 1)
    else midDepth cs d

/-- Concrete input: commentary, an unclosed opening brace, then a
well-formed object — the scan never returns to depth zero. -/
def c10Pre : Str := "see ".toList ++ [lbrace] ++ " here ".toList

/-- Concrete well-formed object embedded in `c10Text`. -/
def c10Obj : Str := [lbrace] ++ "\"a\": 1".toList ++ [rbrace]

/-- The full failing input of claim C10. -/
def c10Text : Str := c10Pre ++ c10Obj

/-- Concrete name with internal punctuation for the normalization claims. -/
def obrien : Str := "Jane   O".toList ++ [Char.ofNat 39] ++ "Brien!".toList

/-- A brace-delimited span written as opening brace, interior, closing
brace. -/
def jblock (mid : Str) : Str := lbrace :: (mid ++ [rbrace])

/-- Embed a serialized object in a tagged fenced code block, as in case
(b) of the extractor round-trip claim. -/
def fenceWrap (s : Str) : Str :=
  [btick, btick, btick] ++ "json".toList ++ ['\n'] ++ s ++ ['\n'] ++ [btick, btick, btick]

/-- A malformed but brace-balanced block: open brace, a stray bracket,
close brace. -/
def c2Bad : Str := [lbrace] ++ "]".toList ++ [rbrace]

/-- A well-formed object whose string value contains a closing brace
character; the brace-depth scan miscounts inside the string literal. -/
def braceStrObj : Str :=
  [lbrace] ++ "\"a\": \"".toList ++ [rbrace] ++ "\"".toList ++ [rbrace]

/-- Concrete input refuting C2 as stated: malformed block, then a
well-formed block with a brace inside a string. -/
def c2Text : Str := c2Bad ++ " ".toList ++ braceStrObj

/-- Concrete input refuting C3 as stated: the brace-in-string object with
leading and trailing commentary. -/
def c3Text : Str := "note ".toList ++ braceStrObj ++ " end".toList

/-- Commentary-wrapped plain object used by several witnesses. -/
def c7wText : Str := "note ".toList ++ [lbrace] ++ "\"a\": 1".toList ++ [rbrace]

/-- Is an optional extraction result an object, modelling the orchestrator
check `merged_json is None or not isinstance(merged_json, dict)` (negated). -/
def isObjOpt : Option Json → Bool
  | some (Json.obj _) => true
  | _ => false

/-- A service stub that always fails (transport failure on every call). -/
def svcNone : List Dict → Option Str := fun _ => none

/-- Prepared row with full name `b` (as produced by `prepare_dataframe`). -/
def c6RowB : Dict :=
  [(fullNameKey, Json.str "b".toList), (normalizedNameKey, Json.str "b".toList)]

/-- Prepared row with full name `a`. -/
def c6RowA : Dict :=
  [(fullNameKey, Json.str "a".toList), (normalizedNameKey, Json.str "a".toList)]

/-- A service stub that always answers with a fixed merged-object text. -/
def c9Svc : List Dict → Option Str :=
  fun _ => some (jblock "\"FullName\": \"Jane Doe\", \"Email\": \"jane@x.com\"".toList)

/-- Two prepared rows forming one concrete merge group keyed `jane doe`. -/
def c9Rows : List Dict :=
  [ [(fullNameKey, Json.str "Jane Doe".toList),
     ("Email".toList, Json.str "jane@x.com".toList),
     (normalizedNameKey, Json.str "jane doe".toList)]
  , [(fullNameKey, Json.str "jane doe".toList),
     ("Company".toList, Json.str "Acme".toList),
     (normalizedNameKey, Json.str "jane doe".toList)] ]

/-- Prepared row with empty full name (empty grouping key). -/
def c4RowEmpty : Dict :=
  [(fullNameKey, Json.str []), (normalizedNameKey, Json.str [])]

/-- Concrete source columns for the harmonization witness. -/
def c8Cols : List Str := ["Name".toList, "Email Address".toList]

/-- Concrete one-row frame for the harmonization witness. -/
def c8Rows : List Dict :=
  [[("Name".toList, Json.str "Jane Doe".toList),
    ("Email Address".toList, Json.str "jane@x.com".toList)]]

/-- Adjacent characters are never both whitespace. -/
def NoDblWs (l : Str) : Prop :=
  List.Chain' (fun a b => isWsPy a = false ∨ isWsPy b = false) l

theorem ofNat_toNat_small (n : Nat) (h : n < 55296) : (Char.ofNat n).toNat = n := by
  have hv : n.isValidChar := Or.inl h
  rw [Char.ofNat, dif_pos hv]
  exact BitVec.toNat_ofNatLt n _

theorem toLowerCh_idem (c : Char) : toLowerCh (toLowerCh c) = toLowerCh c := by
  unfold toLowerCh
  split
  · rename_i h
    have h1 : 65 ≤ c.toNat := h.1
    have h2 : c.toNat ≤ 90 := h.2
    have ht : (Char.ofNat (c.toNat + 32)).toNat = c.toNat + 32 :=
      ofNat_toNat_small _ (by omega)
    rw [if_neg]
    intro hcon
    have h3 : 65 ≤ (Char.ofNat (c.toNat + 32)).toNat := hcon.1
    have h4 : (Char.ofNat (c.toNat + 32)).toNat ≤ 90 := hcon.2
    omega
  · rfl

theorem wsPy_cases {c : Char} (h : isWsPy c = true) :
    c = ' ' ∨ c = '\t' ∨ c = '\n' ∨ c = '\r' ∨ c = Char.ofNat 11 ∨ c = Char.ofNat 12 := by
  simp only [isWsPy, Bool.or_eq_true, beq_iff_eq] at h
  tauto

theorem toLowerCh_ws {c : Char} (h : isWsPy c = true) : toLowerCh c = c := by
  rcases wsPy_cases h with h | h | h | h | h | h <;> subst h <;> decide

theorem dropWhile_head_not {p : Char → Bool} :
    ∀ {l : Str} {c : Char} {t : Str}, List.dropWhile p l = c :: t → p c = false := by
  intro l
  induction l with
  | nil => intro c t h; simp [List.dropWhile] at h
  | cons a l ih =>
    intro c t h
    rw [List.dropWhile_cons] at h
    by_cases hp : p a = true
    · rw [if_pos hp] at h; exact ih h
    · rw [if_neg hp] at h
      cases h
      simpa using hp

theorem dropWhile_self_of_head {p : Char → Bool} {l : Str}
    (h : ∀ c t, l = c :: t → p c = false) : l.dropWhile p = l := by
  cases l with
  | nil => rfl
  | cons c t => rw [List.dropWhile_cons, if_neg (by simp [h c t rfl])]

theorem dropWhile_idem (p : Char → Bool) (l : Str) :
    (l.dropWhile p).dropWhile p = l.dropWhile p := by
  apply dropWhile_self_of_head
  intro c t h
  exact dropWhile_head_not h

theorem dropWhile_suffix_eq (p : Char → Bool) (l : Str) :
    ∃ t, t ++ l.dropWhile p = l := by
  induction l with
  | nil => exact ⟨[], rfl⟩
  | cons c rest ih =>
    rw [List.dropWhile_cons]
    by_cases hp : p c = true
    · obtain ⟨t, ht⟩ := ih
      exact ⟨c :: t, by simp [hp, ht]⟩
    · exact ⟨[], by simp [hp]⟩

theorem stripStr_idem (l : Str) : stripStr (stripStr l) = stripStr l := by
  unfold stripStr
  set a := l.dropWhile isWsPy with ha
  set b := a.reverse.dropWhile isWsPy with hb
  have hfront : b.reverse.dropWhile isWsPy = b.reverse := by
    apply dropWhile_self_of_head
    intro c t h
    obtain ⟨u, hu⟩ := dropWhile_suffix_eq isWsPy a.reverse
    rw [← hb] at hu
    have hau : a = b.reverse ++ u.reverse := by
      have := congrArg List.reverse hu
      simpa using this.symm
    have hdl : List.dropWhile isWsPy l = c :: (t ++ u.reverse) := by
      rw [← ha, hau, h]; simp
    exact dropWhile_head_not hdl
  rw [hfront]
  have : b.reverse.reverse.dropWhile isWsPy = b := by
    rw [List.reverse_reverse, hb]
    exact dropWhile_idem _ _
  rw [this]

theorem mem_dropWhile {p : Char → Bool} {c : Char} :
    ∀ {l : Str}, c ∈ l.dropWhile p → c ∈ l := by
  intro l
  induction l with
  | nil => simp [List.dropWhile]
  | cons a t ih =>
    intro h
    rw [List.dropWhile_cons] at h
    by_cases hp : p a = true
    · rw [if_pos hp] at h; exact List.mem_cons_of_mem _ (ih h)
    · rw [if_neg hp] at h; exact h

theorem mem_stripStr {c : Char} {l : Str} (h : c ∈ stripStr l) : c ∈ l := by
  unfold stripStr at h
  rw [List.mem_reverse] at h
  have h2 := mem_dropWhile h
  rw [List.mem_reverse] at h2
  exact mem_dropWhile h2

theorem collapseWs_cons_not_ws {c : Char} (h : isWsPy c = false) (l : Str) :
    collapseWs (c :: l) = c :: collapseWs l := by
  cases l with
  | nil => simp [collapseWs, h]
  | cons c2 rest => simp [collapseWs, h]

theorem mem_collapseWs {c : Char} :
    ∀ {l : Str}, c ∈ collapseWs l → c ∈ l ∨ c = ' ' := by
  intro l
  induction l with
  | nil => simp [collapseWs]
  | cons c1 t ih =>
    intro h
    cases t with
    | nil =>
      simp only [collapseWs] at h
      by_cases hw : isWsPy c1 = true
      · rw [if_pos hw] at h; right; simpa using h
      · rw [if_neg hw] at h; left; simpa using h
    | cons c2 rest =>
      simp only [collapseWs] at h
      by_cases hb : (isWsPy c1 && isWsPy c2) = true
      · rw [if_pos hb] at h
        rcases ih h with h' | h'
        · exact Or.inl (List.mem_cons_of_mem _ h')
        · exact Or.inr h'
      · rw [if_neg hb] at h
        rcases List.mem_cons.mp h with h' | h'
        · by_cases hw : isWsPy c1 = true
          · rw [if_pos hw] at h'; exact Or.inr h'
          · rw [if_neg hw] at h'; exact Or.inl (h' ▸ List.mem_cons_self _ _)
        · rcases ih h' with h'' | h''
          · exact Or.inl (List.mem_cons_of_mem _ h'')
          · exact Or.inr h''

theorem collapseWs_ws_is_space {c : Char} :
    ∀ {l : Str}, c ∈ collapseWs l → isWsPy c = true → c = ' ' := by
  intro l
  induction l with
  | nil => simp [collapseWs]
  | cons c1 t ih =>
    intro h hw
    cases t with
    | nil =>
      simp only [collapseWs] at h
      by_cases h1 : isWsPy c1 = true
      · rw [if_pos h1] at h; simpa using h
      · rw [if_neg h1] at h
        simp only [List.mem_singleton] at h
        subst h; exact absurd hw h1
    | cons c2 rest =>
      simp only [collapseWs] at h
      by_cases hb : (isWsPy c1 && isWsPy c2) = true
      · rw [if_pos hb] at h; exact ih h hw
      · rw [if_neg hb] at h
        rcases List.mem_cons.mp h with h' | h'
        · by_cases h1 : isWsPy c1 = true
          · rw [if_pos h1] at h'; exact h'
          · rw [if_neg h1] at h'; subst h'; exact absurd hw h1
        · exact ih h' hw

theorem collapseWs_noDblWs : ∀ l : Str, NoDblWs (collapseWs l) := by
  intro l
  induction l with
  | nil => simp [collapseWs, NoDblWs]
  | cons c1 t ih =>
    cases t with
    | nil =>
      by_cases h1 : isWsPy c1 = true <;> simp [collapseWs, NoDblWs, h1]
    | cons c2 rest =>
      simp only [collapseWs]
      by_cases hb : (isWsPy c1 && isWsPy c2) = true
      · rw [if_pos hb]; exact ih
      · rw [if_neg hb]
        rw [NoDblWs, List.chain'_cons']
        constructor
        · intro y hy
          by_cases h1 : isWsPy c1 = true
          · rw [if_pos h1]
            have h2 : isWsPy c2 = false := by
              cases hc2 : isWsPy c2
              · rfl
              · exact absurd (by simp [h1, hc2]) hb
            rw [collapseWs_cons_not_ws h2] at hy
            simp only [List.head?_cons, Option.mem_def, Option.some.injEq] at hy
            right
            rw [← hy]; exact h2
          · rw [if_neg h1]
            left
            simpa using h1
        · exact ih

theorem noDblWs_stripStr {l : Str} (h : NoDblWs l) : NoDblWs (stripStr l) := by
  unfold stripStr
  rw [NoDblWs] at h ⊢
  have hsym : ∀ m : Str, List.Chain' (fun a b => isWsPy a = false ∨ isWsPy b = false) m →
      List.Chain' (fun a b => isWsPy a = false ∨ isWsPy b = false) m.reverse := by
    intro m hm
    rw [List.chain'_reverse]
    have hfl : (flip fun (a b : Char) => isWsPy a = false ∨ isWsPy b = false) =
        (fun (a b : Char) => isWsPy a = false ∨ isWsPy b = false) := by
      funext a b
      simp only [flip]
      exact propext or_comm
    rw [hfl]
    exact hm
  have h1 := List.Chain'.suffix h (List.dropWhile_suffix isWsPy)
  have h2 := hsym _ h1
  have h3 := List.Chain'.suffix h2 (List.dropWhile_suffix isWsPy)
  exact hsym _ h3

theorem collapseWs_self {l : Str} (hnd : NoDblWs l)
    (hsp : ∀ c ∈ l, isWsPy c = true → c = ' ') : collapseWs l = l := by
  induction l with
  | nil => rfl
  | cons c1 t ih =>
    cases t with
    | nil =>
      by_cases h1 : isWsPy c1 = true
      · have := hsp c1 (List.mem_cons_self _ _) h1
        simp [collapseWs, h1, this]
      · simp [collapseWs, h1]
    | cons c2 rest =>
      have hnd' : NoDblWs (c2 :: rest) := (List.chain'_cons'.mp hnd).2
      have hR : isWsPy c1 = false ∨ isWsPy c2 = false := by
        have := (List.chain'_cons'.mp hnd).1 c2 (by simp)
        exact this
      have hb : (isWsPy c1 && isWsPy c2) = false := by
        rcases hR with h | h <;> simp [h]
      have ihr := ih hnd' (fun c hc hw => hsp c (List.mem_cons_of_mem _ hc) hw)
      simp only [collapseWs, hb]
      rw [if_neg (by simp [hb])]
      rw [ihr]
      by_cases h1 : isWsPy c1 = true
      · have := hsp c1 (List.mem_cons_self _ _) h1
        rw [if_pos h1, this]
      · rw [if_neg h1]

theorem map_eq_self_of_fixed {f : Char → Char} {l : Str}
    (h : ∀ c ∈ l, f c = c) : l.map f = l := by
  induction l with
  | nil => rfl
  | cons c t ih =>
    simp only [List.map_cons]
    rw [h c (List.mem_cons_self _ _), ih (fun c hc => h c (List.mem_cons_of_mem _ hc))]

/-- Character-level invariant of `normalizeStr` output: every character is
lower-fixed and is a word character or whitespace. -/
theorem normalizeStr_chars {s : Str} :
    ∀ c ∈ normalizeStr s, toLowerCh c = c ∧ (isWordCh c || isWsPy c) = true := by
  intro c hc
  unfold normalizeStr at hc
  have hc1 := mem_stripStr hc
  rcases mem_collapseWs hc1 with hc2 | hc2
  · rcases List.mem_map.mp hc2 with ⟨c2, hc2m, hc2e⟩
    by_cases hcls : (isWordCh c2 || isWsPy c2) = true
    · rw [if_pos hcls] at hc2e
      subst hc2e
      refine ⟨?_, hcls⟩
      rcases List.mem_map.mp hc2m with ⟨c3, _, hc3e⟩
      rw [← hc3e]
      exact toLowerCh_idem c3
    · rw [if_neg hcls] at hc2e
      subst hc2e
      exact ⟨by decide, by decide⟩
  · subst hc2
    exact ⟨by decide, by decide⟩

theorem normalizeStr_ws_is_space {s : Str} :
    ∀ c ∈ normalizeStr s, isWsPy c = true → c = ' ' := by
  intro c hc hw
  unfold normalizeStr at hc
  exact collapseWs_ws_is_space (mem_stripStr hc) hw

theorem normalizeStr_noDblWs (s : Str) : NoDblWs (normalizeStr s) := by
  unfold normalizeStr
  exact noDblWs_stripStr (collapseWs_noDblWs _)

theorem normalizeStr_stripStr (s : Str) : stripStr (normalizeStr s) = normalizeStr s := by
  unfold normalizeStr
  exact stripStr_idem _

theorem normalizeStr_idem (s : Str) : normalizeStr (normalizeStr s) = normalizeStr s := by
  conv_lhs => rw [normalizeStr]
  rw [normalizeStr_stripStr]
  rw [map_eq_self_of_fixed (fun c hc => (normalizeStr_chars c hc).1)]
  rw [map_eq_self_of_fixed (f := fun c => if isWordCh c || isWsPy c then c else ' ')
    (fun c hc => by
      show (if (isWordCh c || isWsPy c) = true then c else ' ') = c
      rw [if_pos (normalizeStr_chars c hc).2])]
  rw [collapseWs_self (normalizeStr_noDblWs s) (normalizeStr_ws_is_space)]
  exact normalizeStr_stripStr s

/-- C5 (amended): `normalize_name` is a pure idempotent function
(`normalize(normalize(x)) == normalize(x)` for every input) and returns
the empty string on every non-string input; punctuation is replaced by a
space before whitespace collapsing, so
`normalize("Jane   O'Brien!") == normalize("jane o brien")` (the original
claim's right-hand side `"jane obrien"` is off by the space the
apostrophe becomes). -/
theorem claim_C5 :
    (∀ v : Json, normalize_name (Json.str (normalize_name v)) = normalize_name v) ∧
    (∀ v : Json, (∀ s : Str, v ≠ Json.str s) → normalize_name v = []) ∧
    normalize_name (Json.str obrien) = normalize_name (Json.str "jane o brien".toList) := by
  refine ⟨?_, ?_, ?_⟩
  · intro v
    cases v with
    | str s => exact normalizeStr_idem s
    | null => rfl
    | bool b => rfl
    | num n => rfl
    | arr xs => rfl
    | obj kvs => rfl
  · intro v h
    cases v with
    | str s => exact absurd rfl (h s)
    | null => rfl
    | bool b => rfl
    | num n => rfl
    | arr xs => rfl
    | obj kvs => rfl
  · rfl

/-- Witness for C5: the hypotheses are satisfiable — `Json.null` is a
non-string input and is sent to the empty string. -/
theorem claim_C5_witness : normalize_name Json.null = [] :=
  claim_C5.2.1 Json.null (fun _ h => Json.noConfusion h)

/-- Counterexample to C5 as stated: the spec example fails because the
apostrophe is replaced by a space, not deleted. -/
theorem claim_C5_counterexample :
    normalize_name (Json.str obrien) ≠ normalize_name (Json.str "jane obrien".toList) := by
  decide

/-- C10: there is input text containing a well-formed JSON object on which
the extractor fails: an unclosed opening brace earlier in the text keeps
the brace-depth scan from ever returning to depth zero, so no candidate is
attempted and `safe_json_loads` returns failure. -/
theorem claim_C10 :
    safe_json_loads c10Text = none ∧
    jparse c10Obj = some (Json.obj [("a".toList, Json.num 1)]) ∧
    c10Text = c10Pre ++ c10Obj :=
  ⟨rfl, rfl, rfl⟩

theorem scanStep_append_no_lbrace : ∀ {pre : Str} (rest : Str), lbrace ∉ pre →
    scanStep (pre ++ rest) none = scanStep rest none := by
  intro pre
  induction pre with
  | nil => intro rest _; rfl
  | cons c t ih =>
    intro rest h
    rw [List.cons_append]
    simp only [scanStep]
    rw [if_neg (fun hc => h (by rw [← hc]; exact List.mem_cons_self c t))]
    exact ih rest (fun hm => h (List.mem_cons_of_mem _ hm))

theorem scanStep_through_mid : ∀ (mid rest acc : Str) (d : Nat),
    midOk mid d = true →
    scanStep (mid ++ rest) (some (acc, d)) =
      scanStep rest (some (mid.reverse ++ acc, midDepth mid d)) := by
  intro mid
  induction mid with
  | nil =>
    intro rest acc d _
    simp [midDepth]
  | cons c t ih =>
    intro rest acc d h
    rw [List.cons_append]
    by_cases hc : c = lbrace
    · subst hc
      simp only [midOk, if_pos rfl] at h
      simp only [scanStep, if_pos rfl]
      rw [ih rest (lbrace :: acc) (d + 1) h]
      simp [midDepth]
    · by_cases hr : c = rbrace
      · subst hr
        have hnl : ¬(rbrace = lbrace) := by decide
        simp only [midOk, if_neg hnl, if_pos rfl] at h
        rw [if_pos trivial] at h
        rw [Bool.and_eq_true] at h
        obtain ⟨hd2', hok2⟩ := h
        have hd2 : 2 ≤ d := of_decide_eq_true hd2'
        have hd1 : ¬(d = 1) := by omega
        simp only [scanStep, if_neg hnl, if_pos rfl, if_neg hd1]
        rw [ih rest (rbrace :: acc) (d - 1) hok2]
        have hmd : midDepth (rbrace :: t) d = midDepth t (d - 1) := by
          simp only [midDepth, if_neg hnl, if_pos rfl]
          rw [if_pos trivial]
        rw [hmd]
        simp
      · simp only [midOk, if_neg hc, if_neg hr] at h
        simp only [scanStep, if_neg hc, if_neg hr]
        rw [ih rest (c :: acc) d h]
        simp [midDepth, hc, hr]

theorem scanStep_rbrace_one (rest acc : Str) :
    scanStep (rbrace :: rest) (some (acc, 1)) =
      match jparse (acc.reverse ++ [rbrace]) with
      | some v => some v
      | none => scanStep rest none := rfl

theorem scanStep_block (mid rest : Str) (hok : midOk mid 1 = true) (hd : midDepth mid 1 = 1) :
    scanStep (jblock mid ++ rest) none =
      match jparse (jblock mid) with
      | some v => some v
      | none => scanStep rest none := by
  show scanStep ((lbrace :: (mid ++ [rbrace])) ++ rest) none = _
  rw [List.cons_append]
  simp only [scanStep, if_pos rfl]
  rw [List.append_assoc]
  rw [scanStep_through_mid mid ([rbrace] ++ rest) [lbrace] 1 hok, hd]
  rw [List.singleton_append]
  rw [scanStep_rbrace_one]
  have hcand : (mid.reverse ++ [lbrace]).reverse ++ [rbrace] = jblock mid := by
    simp [jblock]
  rw [hcand]
  try rw [if_pos trivial]

/-- C2 (amended): given one malformed but brace-balanced block followed
(possibly after brace-free filler) by a well-formed object block whose
brace characters are balanced as raw characters (no stray brace inside a
string literal), the brace-depth scan discards the failed candidate and
returns the later object.  The original claim's unrestricted "well-formed
JSON object block" fails when a string value contains a brace, see the
counterexample. -/
theorem claim_C2 (badMid goodMid sep : Str) (o : List (Str × Json))
    (hbadOk : midOk badMid 1 = true) (hbadD : midDepth badMid 1 = 1)
    (hgoodOk : midOk goodMid 1 = true) (hgoodD : midDepth goodMid 1 = 1)
    (hbad : jparse (jblock badMid) = none)
    (hgood : jparse (jblock goodMid) = some (Json.obj o))
    (hsep : lbrace ∉ sep) :
    braceScan (jblock badMid ++ sep ++ jblock goodMid) = some (Json.obj o) := by
  unfold braceScan
  rw [List.append_assoc]
  rw [scanStep_block badMid (sep ++ jblock goodMid) hbadOk hbadD]
  rw [hbad]
  show scanStep (sep ++ jblock goodMid) none = _
  rw [scanStep_append_no_lbrace _ hsep]
  rw [← List.append_nil (jblock goodMid)]
  rw [scanStep_block goodMid [] hgoodOk hgoodD]
  rw [hgood]

/-- Witness for C2: a concrete malformed block `\x7b]\x7d` followed by the
object `\x7b"a": 1\x7d` is recovered by the scan. -/
theorem claim_C2_witness :
    braceScan (jblock "]".toList ++ " ".toList ++ jblock "\"a\": 1".toList) =
      some (Json.obj [("a".toList, Json.num 1)]) :=
  claim_C2 "]".toList "\"a\": 1".toList " ".toList [("a".toList, Json.num 1)]
    (by decide) (by decide) (by decide) (by decide) rfl rfl (by decide)

/-- Counterexample to C2 as stated: a malformed balanced block followed by
a well-formed object block whose string value contains a closing brace;
the scan (and the whole extractor) fails on it. -/
theorem claim_C2_counterexample :
    jparse c2Bad = none ∧
    jparse braceStrObj = some (Json.obj [("a".toList, Json.str [rbrace])]) ∧
    braceScan c2Text = none ∧ safe_json_loads c2Text = none :=
  ⟨rfl, rfl, rfl, rfl⟩

theorem jparse_btick (r : Str) : jparse (btick :: r) = none := rfl

theorem tryFenceAt_no_btick {c : Char} {rest : Str} (h : c ≠ btick) :
    tryFenceAt (c :: rest) = none := by
  unfold tryFenceAt
  rw [if_neg]
  intro he
  rw [List.take_succ_cons] at he
  injection he with h1 _
  exact h h1

theorem fenceSearch_no_btick : ∀ {l : Str}, btick ∉ l → fenceSearch l = none := by
  intro l
  induction l with
  | nil => intro _; rfl
  | cons c rest ih =>
    intro h
    show fenceSearch (c :: rest) = none
    simp only [fenceSearch]
    rw [tryFenceAt_no_btick (fun hc => h (by rw [← hc]; exact List.mem_cons_self c rest))]
    exact ih (fun hm => h (List.mem_cons_of_mem _ hm))

theorem fenceTail_false_of_first {l : Str} {c : Char} {t : Str}
    (h : l.dropWhile isWsPy = c :: t) (hc : c ≠ btick) : fenceTail l = false := by
  unfold fenceTail
  rw [h]
  apply decide_eq_false
  intro he
  rw [List.take_succ_cons] at he
  injection he with h1 _
  exact hc h1

theorem fenceTail_false_mid (m tail2 : Str) (hbt : btick ∉ m) :
    fenceTail (m ++ rbrace :: tail2) = false := by
  cases hm : (m.dropWhile isWsPy) with
  | nil =>
    apply fenceTail_false_of_first (c := rbrace) (t := tail2)
    · rw [List.dropWhile_append, hm]
      simp only [List.isEmpty_nil, if_pos]
      rw [List.dropWhile_cons, if_neg (by decide)]
    · decide
  | cons c t =>
    apply fenceTail_false_of_first (c := c) (t := t ++ rbrace :: tail2)
    · rw [List.dropWhile_append, hm]
      simp
    · intro hc
      apply hbt
      rw [← hc]
      exact mem_dropWhile (hm ▸ List.mem_cons_self c t)

theorem lazyClose_through (tail : Str) (htail : fenceTail tail = true) :
    ∀ (mid acc : Str), btick ∉ mid →
    lazyClose (mid ++ rbrace :: tail) acc =
      some (lbrace :: (acc.reverse ++ mid ++ [rbrace])) := by
  intro mid
  induction mid with
  | nil =>
    intro acc _
    show lazyClose (rbrace :: tail) acc = _
    simp only [lazyClose, if_pos rfl, htail]
    simp
  | cons c t ih =>
    intro acc h
    rw [List.cons_append]
    by_cases hc : c = rbrace
    · subst hc
      have hf : fenceTail (t ++ rbrace :: tail) = false :=
        fenceTail_false_mid t tail (fun hm => h (List.mem_cons_of_mem _ hm))
      simp only [lazyClose, if_pos rfl]
      rw [hf]
      rw [if_neg (by decide : ¬(false = true))]
      rw [ih (rbrace :: acc) (fun hm => h (List.mem_cons_of_mem _ hm))]
      simp
    · simp only [lazyClose, if_neg hc]
      rw [ih (c :: acc) (fun hm => h (List.mem_cons_of_mem _ hm))]
      simp

theorem fenceSearch_cons_some {c : Char} {rest g : Str}
    (h : tryFenceAt (c :: rest) = some g) : fenceSearch (c :: rest) = some g := by
  simp only [fenceSearch]
  rw [h]

theorem fenceSearch_fenceWrap (mid : Str) (hbt : btick ∉ mid) :
    fenceSearch (fenceWrap (jblock mid)) = some (jblock mid) := by
  have hcons : fenceWrap (jblock mid) =
      btick :: btick :: btick :: ('j' :: 's' :: 'o' :: 'n' :: '\n' ::
        (lbrace :: ((mid ++ [rbrace]) ++ ('\n' :: [btick, btick, btick])))) := by
    show [btick, btick, btick] ++ "json".toList ++ ['\n'] ++ (lbrace :: (mid ++ [rbrace])) ++
      ['\n'] ++ [btick, btick, btick] = _
    simp
  rw [hcons]
  apply fenceSearch_cons_some
  have htf : tryFenceAt (btick :: btick :: btick :: ('j' :: 's' :: 'o' :: 'n' :: '\n' ::
      (lbrace :: ((mid ++ [rbrace]) ++ ('\n' :: [btick, btick, btick]))))) =
      lazyClose ((mid ++ [rbrace]) ++ ('\n' :: [btick, btick, btick])) [] := by rfl
  rw [htf]
  rw [List.append_assoc, List.singleton_append]
  rw [lazyClose_through ('\n' :: [btick, btick, btick]) (by decide) mid [] hbt]
  simp [jblock]

theorem jparse_fenceWrap (s : Str) : jparse (fenceWrap s) = none := by
  have hcons : fenceWrap s =
      btick :: (btick :: btick :: ("json".toList ++
        ('\n' :: (s ++ ('\n' :: [btick, btick, btick]))))) := by
    simp [fenceWrap]
  rw [hcons]
  exact jparse_btick _

/-- C3 (amended): for a serialized object block whose brace characters are
balanced as raw characters (no stray brace inside a string literal) and
which contains no backtick, the extractor recovers the object from (a) the
serialization alone, (b) the serialization in a tagged fenced code block,
and (c) the serialization surrounded by commentary that contains no
opening brace and no backtick and makes the whole text unparseable.  The
original claim fails for objects whose string values contain brace
characters (see the counterexample). -/
theorem claim_C3 (mid pre post : Str) (o : List (Str × Json))
    (hs : jparse (jblock mid) = some (Json.obj o))
    (hok : midOk mid 1 = true) (hd : midDepth mid 1 = 1)
    (hbt : btick ∉ mid)
    (hpre1 : lbrace ∉ pre) (hpre2 : btick ∉ pre) (hpost : btick ∉ post)
    (hdirect : jparse (pre ++ (jblock mid ++ post)) = none) :
    safe_json_loads (jblock mid) = some (Json.obj o) ∧
    safe_json_loads (fenceWrap (jblock mid)) = some (Json.obj o) ∧
    safe_json_loads (pre ++ (jblock mid ++ post)) = some (Json.obj o) := by
  refine ⟨?_, ?_, ?_⟩
  · unfold safe_json_loads
    rw [hs]
  · unfold safe_json_loads
    rw [jparse_fenceWrap]
    rw [fenceSearch_fenceWrap mid hbt]
    show (match jparse (jblock mid) with
      | some v => some v
      | none => braceScan (fenceWrap (jblock mid))) = some (Json.obj o)
    rw [hs]
  · have hnb : btick ∉ pre ++ (jblock mid ++ post) := by
      intro hm
      rcases List.mem_append.mp hm with hm1 | hm2
      · exact hpre2 hm1
      · rcases List.mem_append.mp hm2 with hm3 | hm4
        · rcases List.mem_cons.mp hm3 with hm5 | hm6
          · exact absurd hm5 (by decide)
          · rcases List.mem_append.mp hm6 with hm7 | hm8
            · exact hbt hm7
            · rcases List.mem_singleton.mp hm8 with h
              exact absurd h (by decide)
        · exact hpost hm4
    unfold safe_json_loads
    rw [hdirect, fenceSearch_no_btick hnb]
    show braceScan (pre ++ (jblock mid ++ post)) = some (Json.obj o)
    unfold braceScan
    rw [scanStep_append_no_lbrace _ hpre1]
    rw [scanStep_block mid post hok hd]
    rw [hs]

/-- Witness for C3: the object `\x7b"a": 1\x7d` is recovered raw, fenced,
and wrapped in commentary. -/
theorem claim_C3_witness :
    safe_json_loads (jblock "\"a\": 1".toList) = some (Json.obj [("a".toList, Json.num 1)]) ∧
    safe_json_loads (fenceWrap (jblock "\"a\": 1".toList)) =
      some (Json.obj [("a".toList, Json.num 1)]) ∧
    safe_json_loads ("note ".toList ++ (jblock "\"a\": 1".toList ++ " end.".toList)) =
      some (Json.obj [("a".toList, Json.num 1)]) :=
  claim_C3 "\"a\": 1".toList "note ".toList " end.".toList [("a".toList, Json.num 1)]
    rfl (by decide) (by decide) (by decide) (by decide) (by decide) (by decide) rfl

/-- Counterexample to C3 as stated: a well-formed object whose string
value contains a closing brace is not recovered from commentary-wrapped
text — the extractor fails outright. -/
theorem claim_C3_counterexample :
    jparse braceStrObj = some (Json.obj [("a".toList, Json.str [rbrace])]) ∧
    safe_json_loads c3Text = none :=
  ⟨rfl, rfl⟩

theorem parseMembers_isObj : ∀ (fuel : Nat) (s : Str) (acc : List (Str × Json))
    (v : Json) (r : Str), parseMembers fuel s acc = some (v, r) → v.isObj = true := by
  intro fuel
  induction fuel with
  | zero => intro s acc v r h; exact absurd h (by simp [parseMembers])
  | succ fuel ih =>
    intro s acc v r h
    simp only [parseMembers] at h
    repeat' split at h
    all_goals try exact ih _ _ _ _ h
    all_goals try (simp only [Option.some.injEq, Prod.mk.injEq] at h; rw [← h.1]; rfl)
    all_goals exact absurd h (by simp)

theorem parseVal_lbrace_isObj : ∀ (fuel : Nat) (t : Str) (v : Json) (r : Str),
    parseVal fuel (lbrace :: t) = some (v, r) → v.isObj = true := by
  intro fuel t v r h
  cases fuel with
  | zero => exact absurd h (by simp [parseVal])
  | succ fuel =>
    have hred : parseVal (fuel + 1) (lbrace :: t) =
        (match skipWs t with
         | c2 :: rest2 =>
           if c2 = rbrace then some (Json.obj [], rest2) else parseMembers fuel t []
         | [] => none) := by rfl
    rw [hred] at h
    split at h
    · rename_i c2 rest2 heq
      by_cases hc2 : c2 = rbrace
      · rw [if_pos hc2] at h
        simp only [Option.some.injEq, Prod.mk.injEq] at h
        rw [← h.1]; rfl
      · rw [if_neg hc2] at h
        exact parseMembers_isObj _ _ _ _ _ h
    · exact absurd h (by simp)

theorem jparse_lbrace_isObj {t : Str} {v : Json} (h : jparse (lbrace :: t) = some v) :
    v.isObj = true := by
  unfold jparse at h
  split at h
  · rename_i v2 rest2 heq2
    split at h
    · injection h with h1
      rw [← h1]
      exact parseVal_lbrace_isObj _ _ _ _ heq2
    · exact absurd h (by simp)
  · exact absurd h (by simp)

theorem lazyClose_shape : ∀ (s acc g : Str), lazyClose s acc = some g →
    ∃ t, g = lbrace :: t := by
  intro s
  induction s with
  | nil => intro acc g h; exact absurd h (by simp [lazyClose])
  | cons c rest ih =>
    intro acc g h
    simp only [lazyClose] at h
    split at h
    · split at h
      · injection h with h1
        exact ⟨acc.reverse ++ [rbrace], h1.symm⟩
      · exact ih _ _ h
    · exact ih _ _ h

theorem tryFenceAt_shape {s g : Str} (h : tryFenceAt s = some g) : ∃ t, g = lbrace :: t := by
  unfold tryFenceAt at h
  split at h
  · split at h
    · split at h
      · exact lazyClose_shape _ _ _ h
      · exact absurd h (by simp)
    · exact absurd h (by simp)
  · exact absurd h (by simp)

theorem fenceSearch_shape : ∀ {l g : Str}, fenceSearch l = some g → ∃ t, g = lbrace :: t := by
  intro l
  induction l with
  | nil => intro g h; exact absurd h (by simp [fenceSearch])
  | cons c rest ih =>
    intro g h
    simp only [fenceSearch] at h
    split at h
    · rename_i g' hg
      injection h with h1
      exact h1 ▸ tryFenceAt_shape hg
    · exact ih h

theorem scanStep_isObj : ∀ (s : Str) (st : Option (Str × Nat)) (v : Json),
    (∀ acc d, st = some (acc, d) → ∃ t, acc = t ++ [lbrace]) →
    scanStep s st = some v → v.isObj = true := by
  intro s
  induction s with
  | nil => intro st v _ h; exact absurd h (by simp [scanStep])
  | cons c rest ih =>
    intro st v hst h
    cases st with
    | none =>
      simp only [scanStep] at h
      split at h
      · exact ih _ _ (fun acc d he => by
          injection he with he1
          injection he1 with he2 he3
          exact ⟨[], he2.symm ▸ rfl⟩) h
      · exact ih _ _ (fun acc d he => by cases he) h
    | some p =>
      obtain ⟨acc, d⟩ := p
      obtain ⟨t, ht⟩ := hst acc d rfl
      simp only [scanStep] at h
      split at h
      · exact ih _ _ (fun acc' d' he => by
          injection he with he1
          injection he1 with he2 he3
          exact ⟨lbrace :: t, by rw [← he2, ht]; rfl⟩) h
      · split at h
        · split at h
          · split at h
            · rename_i w hw
              injection h with h1
              have hrv : acc.reverse ++ [rbrace] = lbrace :: (t.reverse ++ [rbrace]) := by
                rw [ht]; simp
              rw [hrv] at hw
              rw [← h1]
              exact jparse_lbrace_isObj hw
            · exact ih _ _ (fun acc' d' he => by cases he) h
          · exact ih _ _ (fun acc' d' he => by
              injection he with he1
              injection he1 with he2 he3
              exact ⟨rbrace :: t, by rw [← he2, ht]; rfl⟩) h
        · exact ih _ _ (fun acc' d' he => by
            injection he with he1
            injection he1 with he2 he3
            exact ⟨c :: t, by rw [← he2, ht]; rfl⟩) h

/-- C7 (amended): every non-failure result of the extractor that does not
come from the direct whole-text parse is an object; the direct strategy
returns whatever the text parses to (possibly a list or scalar, see the
counterexample), and the orchestrator's `isinstance(..., dict)` check
covers that case. -/
theorem claim_C7 (text : Str) (v : Json) (hdirect : jparse text = none)
    (h : safe_json_loads text = some v) : v.isObj = true := by
  unfold safe_json_loads at h
  rw [hdirect] at h
  have hscan : braceScan text = some v → v.isObj = true := by
    intro hb
    exact scanStep_isObj text none v (fun acc d he => by cases he) hb
  cases hf : fenceSearch text with
  | none =>
    rw [hf] at h
    exact hscan h
  | some inner =>
    rw [hf] at h
    replace h : (match jparse inner with
      | some v => some v
      | none => braceScan text) = some v := h
    cases hj : jparse inner with
    | none =>
      rw [hj] at h
      exact hscan h
    | some w =>
      rw [hj] at h
      injection h with h1
      obtain ⟨t, ht⟩ := fenceSearch_shape hf
      rw [ht] at hj
      rw [← h1]
      exact jparse_lbrace_isObj hj

/-- Witness for C7: commentary-wrapped object text fails the direct parse
but the extractor returns an object. -/
theorem claim_C7_witness :
    jparse c7wText = none ∧ (Json.obj [("a".toList, Json.num 1)]).isObj = true :=
  ⟨rfl, claim_C7 c7wText (Json.obj [("a".toList, Json.num 1)]) rfl rfl⟩

/-- Counterexample to C7 as stated: the direct-parse strategy happily
returns a scalar. -/
theorem claim_C7_counterexample :
    safe_json_loads "42".toList = some (Json.num 42) ∧ (Json.num 42).isObj = false :=
  ⟨rfl, rfl⟩

theorem mem_insertKey {x k : Str} : ∀ {l : List Str}, x ∈ insertKey k l → x = k ∨ x ∈ l := by
  intro l
  induction l with
  | nil => intro h; simpa [insertKey] using h
  | cons k2 rest ih =>
    intro h
    simp only [insertKey] at h
    split at h
    · rcases List.mem_cons.mp h with h1 | h1
      · exact Or.inl h1
      · exact Or.inr h1
    · rcases List.mem_cons.mp h with h1 | h1
      · exact Or.inr (h1 ▸ List.mem_cons_self _ _)
      · rcases ih h1 with h2 | h2
        · exact Or.inl h2
        · exact Or.inr (List.mem_cons_of_mem _ h2)

theorem insertKey_mem {k : Str} : ∀ {l : List Str}, k ∈ insertKey k l := by
  intro l
  induction l with
  | nil => simp [insertKey]
  | cons k2 rest ih =>
    simp only [insertKey]
    split
    · exact List.mem_cons_self _ _
    · exact List.mem_cons_of_mem _ ih

theorem insertKey_mem_of_mem {x k : Str} : ∀ {l : List Str}, x ∈ l → x ∈ insertKey k l := by
  intro l
  induction l with
  | nil => intro h; cases h
  | cons k2 rest ih =>
    intro h
    simp only [insertKey]
    split
    · exact List.mem_cons_of_mem _ h
    · rcases List.mem_cons.mp h with h1 | h1
      · exact h1 ▸ List.mem_cons_self _ _
      · exact List.mem_cons_of_mem _ (ih h1)

theorem mem_sortKeys {x : Str} : ∀ {l : List Str}, x ∈ sortKeys l ↔ x ∈ l := by
  intro l
  induction l with
  | nil => simp [sortKeys]
  | cons k rest ih =>
    simp only [sortKeys]
    constructor
    · intro h
      rcases mem_insertKey h with h1 | h1
      · exact h1 ▸ List.mem_cons_self _ _
      · exact List.mem_cons_of_mem _ (ih.mp h1)
    · intro h
      rcases List.mem_cons.mp h with h1 | h1
      · exact h1 ▸ insertKey_mem
      · exact insertKey_mem_of_mem (ih.mpr h1)

theorem groupByKey_self {master : List Dict} {r : Dict} (hr : r ∈ master) :
    (rowKey r, master.filter (fun x => rowKey x = rowKey r)) ∈ groupByKey master := by
  unfold groupByKey
  apply List.mem_map_of_mem
  rw [mem_sortKeys, List.mem_dedup]
  exact List.mem_map_of_mem _ hr

theorem groupByKey_shape {master : List Dict} {g : Str × List Dict}
    (hg : g ∈ groupByKey master) : g.2 = master.filter (fun x => rowKey x = g.1) := by
  unfold groupByKey at hg
  rcases List.mem_map.mp hg with ⟨k, _, hk⟩
  rw [← hk]

theorem groupByKey_rowKey {master : List Dict} {g : Str × List Dict}
    (hg : g ∈ groupByKey master) {r : Dict} (hr : r ∈ g.2) : rowKey r = g.1 := by
  rw [groupByKey_shape hg] at hr
  have := List.mem_filter.mp hr
  exact of_decide_eq_true this.2

theorem processGroups_keep (svc : List Dict → Option Str) (maxG : Option Nat) :
    ∀ (gs : List (Str × List Dict)) (cnt : Nat) (key : Str) (rows : List Dict) (r : Dict),
    (key, rows) ∈ gs → r ∈ rows →
    (key = [] ∨ rows.length = 1 ∨
      isObjOpt (call_ollama svc (build_prompt_for_group rows)) = false) →
    r ∈ (processGroups svc maxG gs cnt).1 := by
  intro gs
  induction gs with
  | nil => intro cnt key rows r h; cases h
  | cons g gs ih =>
    intro cnt key rows r hmem hr hcond
    obtain ⟨key2, rows2⟩ := g
    rcases List.mem_cons.mp hmem with hhd | htl
    · injection hhd with hk1 hk2
      subst hk1; subst hk2
      simp only [processGroups]
      by_cases h1 : key = [] ∨ rows.length = 1
      · rw [if_pos h1]
        exact List.mem_append_left _ hr
      · rw [if_neg h1]
        by_cases h2 : capReached maxG cnt = true
        · rw [if_pos h2]
          exact List.mem_append_left _ hr
        · rw [if_neg h2]
          have h3 : isObjOpt (call_ollama svc (build_prompt_for_group rows)) = false := by
            rcases hcond with hc | hc | hc
            · exact absurd (Or.inl hc) h1
            · exact absurd (Or.inr hc) h1
            · exact hc
          cases hcall : call_ollama svc (build_prompt_for_group rows) with
          | none => exact List.mem_append_left _ hr
          | some j =>
            cases j with
            | obj kvs => rw [hcall] at h3; exact absurd h3 (by simp [isObjOpt])
            | null => exact List.mem_append_left _ hr
            | bool b => exact List.mem_append_left _ hr
            | num n => exact List.mem_append_left _ hr
            | str s => exact List.mem_append_left _ hr
            | arr xs => exact List.mem_append_left _ hr
    · simp only [processGroups]
      by_cases h1 : key2 = [] ∨ rows2.length = 1
      · rw [if_pos h1]
        exact List.mem_append_right _ (ih cnt key rows r htl hr hcond)
      · rw [if_neg h1]
        by_cases h2 : capReached maxG cnt = true
        · rw [if_pos h2]
          exact List.mem_append_right _ (ih cnt key rows r htl hr hcond)
        · rw [if_neg h2]
          cases hcall : call_ollama svc (build_prompt_for_group rows2) with
          | none => exact List.mem_append_right _ (ih cnt key rows r htl hr hcond)
          | some j =>
            cases j with
            | obj kvs => exact ih (cnt + 1) key rows r htl hr hcond
            | null => exact List.mem_append_right _ (ih cnt key rows r htl hr hcond)
            | bool b => exact List.mem_append_right _ (ih cnt key rows r htl hr hcond)
            | num n => exact List.mem_append_right _ (ih cnt key rows r htl hr hcond)
            | str s => exact List.mem_append_right _ (ih cnt key rows r htl hr hcond)
            | arr xs => exact List.mem_append_right _ (ih cnt key rows r htl hr hcond)

theorem output_keeps (svc : List Dict → Option Str) (maxG : Option Nat)
    (master : List Dict) (r : Dict) (hr : r ∈ master)
    (hcond : rowKey r = [] ∨ (master.filter (fun x => rowKey x = rowKey r)).length = 1 ∨
      isObjOpt (call_ollama svc (build_prompt_for_group
        (master.filter (fun x => rowKey x = rowKey r)))) = false) :
    dropNormalizedName r ∈ process_duplicates svc maxG master := by
  cases hm : master with
  | nil => rw [hm] at hr; cases hr
  | cons m0 mrest =>
    rw [← hm]
    have hout : process_duplicates svc maxG master =
        ((processGroups svc maxG (groupByKey master) 0).1 ++
         (processGroups svc maxG (groupByKey master) 0).2).map dropNormalizedName := by
      rw [hm]; rfl
    rw [hout]
    apply List.mem_map_of_mem
    apply List.mem_append_left
    apply processGroups_keep svc maxG (groupByKey master) 0 (rowKey r)
      (master.filter (fun x => rowKey x = rowKey r)) r (groupByKey_self hr)
    · rw [List.mem_filter]
      exact ⟨hr, by simp⟩
    · exact hcond

/-- C1: no record is ever silently dropped.  Every record of a passthrough
group (empty key or singleton), and every record of a merge group whose
service call fails, whose extraction fails, or whose extracted value is
not an object, appears in the final output unchanged (up to removal of the
helper grouping-key column, which is never part of the output schema). -/
theorem claim_C1 (svc : List Dict → Option Str) (maxG : Option Nat) (master : List Dict)
    (r : Dict) (hr : r ∈ master) :
    ((rowKey r = [] ∨ (master.filter (fun x => rowKey x = rowKey r)).length = 1) →
      dropNormalizedName r ∈ process_duplicates svc maxG master) ∧
    (isObjOpt (call_ollama svc (build_prompt_for_group
        (master.filter (fun x => rowKey x = rowKey r)))) = false →
      dropNormalizedName r ∈ process_duplicates svc maxG master) :=
  ⟨fun h => output_keeps svc maxG master r hr
      (h.elim Or.inl (fun h2 => Or.inr (Or.inl h2))),
   fun h => output_keeps svc maxG master r hr (Or.inr (Or.inr h))⟩

/-- Witness for C1: a singleton-group record survives a run whose every
service call fails. -/
theorem claim_C1_witness :
    dropNormalizedName c6RowA ∈ process_duplicates svcNone none [c6RowA] :=
  (claim_C1 svcNone none [c6RowA] c6RowA (List.mem_cons_self _ _)).1 (Or.inr rfl)

/-- C4: grouping partitions correctly — records with equal non-empty
normalized keys share a duplicate group, records with differing keys never
share one, and every record with an empty normalized key passes through
unchanged (never merged with anything), whatever the service does. -/
theorem claim_C4 (master : List Dict) :
    (∀ r1 ∈ master, ∀ r2 ∈ master, rowKey r1 = rowKey r2 → rowKey r1 ≠ [] →
      ∃ g ∈ groupByKey master, r1 ∈ g.2 ∧ r2 ∈ g.2) ∧
    (∀ r1 r2 : Dict, rowKey r1 ≠ rowKey r2 → rowKey r1 ≠ [] → rowKey r2 ≠ [] →
      ∀ g ∈ groupByKey master, ¬(r1 ∈ g.2 ∧ r2 ∈ g.2)) ∧
    (∀ r ∈ master, rowKey r = [] → ∀ (svc : List Dict → Option Str) (maxG : Option Nat),
      dropNormalizedName r ∈ process_duplicates svc maxG master) := by
  refine ⟨?_, ?_, ?_⟩
  · intro r1 h1 r2 h2 hk _
    refine ⟨(rowKey r1, master.filter (fun x => rowKey x = rowKey r1)),
      groupByKey_self h1, ?_, ?_⟩
    · rw [List.mem_filter]
      exact ⟨h1, by simp⟩
    · rw [List.mem_filter]
      refine ⟨h2, ?_⟩
      rw [← hk]
      simp
  · rintro r1 r2 hne _ _ g hg ⟨m1, m2⟩
    exact hne ((groupByKey_rowKey hg m1).trans (groupByKey_rowKey hg m2).symm)
  · intro r hr hk svc maxG
    exact output_keeps svc maxG master r hr (Or.inl hk)

/-- Witness for C4: an empty-key record passes through unchanged even with
another empty-key record present. -/
theorem claim_C4_witness :
    dropNormalizedName c4RowEmpty ∈
      process_duplicates svcNone none [c4RowEmpty, c4RowEmpty] :=
  (claim_C4 [c4RowEmpty, c4RowEmpty]).2.2 c4RowEmpty (List.mem_cons_self _ _) rfl svcNone none

/-- C9: a merge group whose service call and extraction succeed with an
object contributes exactly one output record — the returned object with
any grouping-key field removed and the key recomputed from the object's
`FullName` — appended to the merged-row side, leaving the passthrough side
untouched (stated with the shipped configuration `MAX_GROUPS = None`). -/
theorem claim_C9 (svc : List Dict → Option Str) (key : Str) (rows : List Dict)
    (gs : List (Str × List Dict)) (cnt : Nat) (kvs : List (Str × Json))
    (hkey : key ≠ []) (hlen : rows.length ≠ 1)
    (hcall : call_ollama svc (build_prompt_for_group rows) = some (Json.obj kvs)) :
    processGroups svc none ((key, rows) :: gs) cnt =
      ((processGroups svc none gs (cnt + 1)).1,
       (kvs.filter (fun kv => kv.1 ≠ normalizedNameKey) ++
         [(normalizedNameKey, Json.str (normalize_name
           (match alookup fullNameKey (kvs.filter (fun kv => kv.1 ≠ normalizedNameKey)) with
            | some v => v
            | none => Json.str [])))]) ::
       (processGroups svc none gs (cnt + 1)).2) := by
  simp only [processGroups]
  rw [if_neg (fun hor => hor.elim hkey hlen)]
  rw [if_neg (by simp [capReached])]
  rw [hcall]
  rfl

/-- Witness for C9: a two-record `jane doe` group, a service answering the
merged object, and the single resulting row with recomputed key. -/
theorem claim_C9_witness :
    processGroups c9Svc none [("jane doe".toList, c9Rows)] 0 =
      ([], [[(fullNameKey, Json.str "Jane Doe".toList),
             ("Email".toList, Json.str "jane@x.com".toList),
             (normalizedNameKey, Json.str "jane doe".toList)]]) := by
  rw [claim_C9 c9Svc "jane doe".toList c9Rows [] 0
    [(fullNameKey, Json.str "Jane Doe".toList), ("Email".toList, Json.str "jane@x.com".toList)]
    (by decide) (by decide) rfl]
  rfl

theorem char_toNat_inj {a b : Char} (h : a.toNat = b.toNat) : a = b := by
  apply Char.eq_of_val_eq
  apply UInt32.toNat.inj h

theorem strLe_total : ∀ (a b : Str), strLe a b = true ∨ strLe b a = true := by
  intro a
  induction a with
  | nil => intro b; exact Or.inl rfl
  | cons a1 as_ ih =>
    intro b
    cases b with
    | nil => exact Or.inr rfl
    | cons b1 bs =>
      simp only [strLe]
      by_cases hlt : a1.toNat < b1.toNat
      · exact Or.inl (by simp [hlt])
      · by_cases hgt : b1.toNat < a1.toNat
        · exact Or.inr (by simp [hgt])
        · have heq : a1 = b1 := char_toNat_inj (by omega)
          subst heq
          rcases ih bs with h | h
          · exact Or.inl (by simp [h])
          · exact Or.inr (by simp [h])

theorem strLe_trans : ∀ (a b c : Str), strLe a b = true → strLe b c = true →
    strLe a c = true := by
  intro a
  induction a with
  | nil => intro b c _ _; rfl
  | cons a1 as_ ih =>
    intro b c hab hbc
    cases b with
    | nil => exact absurd hab (by simp [strLe])
    | cons b1 bs =>
      cases c with
      | nil => exact absurd hbc (by simp [strLe])
      | cons c1 cs =>
        simp only [strLe, Bool.or_eq_true, Bool.and_eq_true, decide_eq_true_eq] at hab hbc ⊢
        rcases hab with h1 | ⟨he1, h1⟩
        · rcases hbc with h2 | ⟨he2, h2⟩
          · exact Or.inl (by omega)
          · subst he2; exact Or.inl h1
        · subst he1
          rcases hbc with h2 | ⟨he2, h2⟩
          · exact Or.inl h2
          · subst he2; exact Or.inr ⟨rfl, ih bs cs h1 h2⟩

theorem pairwise_insertKey {k : Str} : ∀ {l : List Str},
    List.Pairwise (fun a b => strLe a b = true) l →
    List.Pairwise (fun a b => strLe a b = true) (insertKey k l) := by
  intro l
  induction l with
  | nil => intro _; simp [insertKey]
  | cons k2 rest ih =>
    intro hp
    rw [List.pairwise_cons] at hp
    obtain ⟨hk2, hrest⟩ := hp
    simp only [insertKey]
    split
    · rename_i hle
      rw [List.pairwise_cons]
      refine ⟨?_, List.pairwise_cons.mpr ⟨hk2, hrest⟩⟩
      intro x hx
      rcases List.mem_cons.mp hx with h1 | h1
      · exact h1 ▸ hle
      · exact strLe_trans _ _ _ hle (hk2 x h1)
    · rename_i hnle
      rw [List.pairwise_cons]
      refine ⟨?_, ih hrest⟩
      intro x hx
      rcases mem_insertKey hx with h1 | h1
      · rw [h1]
        rcases strLe_total k k2 with h | h
        · exact absurd h hnle
        · exact h
      · exact hk2 x h1

theorem pairwise_sortKeys : ∀ l : List Str,
    List.Pairwise (fun a b => strLe a b = true) (sortKeys l) := by
  intro l
  induction l with
  | nil => simp [sortKeys]
  | cons k rest ih => exact pairwise_insertKey ih

/-- C6 (amended): ordering is deterministic but NOT first-seen — pandas
`groupby(sort=True)` processes groups in ascending lexicographic order of
the normalized key (see the counterexample for a first-seen violation);
row order inside each group follows master-table order (each group is the
in-order filter of the master rows with that key, a sublist of the
master); and final assembly emits all passthrough rows first and all
merged rows after them, dropping the grouping-key column — not an
interleaving in group-encounter order. -/
theorem claim_C6 (svc : List Dict → Option Str) (maxG : Option Nat)
    (master : List Dict) (hne : master ≠ []) :
    List.Pairwise (fun a b => strLe a b = true) ((groupByKey master).map Prod.fst) ∧
    (∀ g ∈ groupByKey master, g.2 = master.filter (fun r => rowKey r = g.1) ∧
      g.2.Sublist master ∧ g.2 ≠ []) ∧
    process_duplicates svc maxG master =
      ((processGroups svc maxG (groupByKey master) 0).1 ++
       (processGroups svc maxG (groupByKey master) 0).2).map dropNormalizedName := by
  refine ⟨?_, ?_, ?_⟩
  · unfold groupByKey
    rw [List.map_map]
    have hid : (Prod.fst ∘ fun k => (k, master.filter (fun r => rowKey r = k))) = id := rfl
    rw [hid, List.map_id]
    exact pairwise_sortKeys _
  · intro g hg
    refine ⟨groupByKey_shape hg, ?_, ?_⟩
    · rw [groupByKey_shape hg]
      exact List.filter_sublist _
    · unfold groupByKey at hg
      rcases List.mem_map.mp hg with ⟨k, hk, hke⟩
      rw [mem_sortKeys, List.mem_dedup] at hk
      rcases List.mem_map.mp hk with ⟨r, hr, hrk⟩
      rw [← hke]
      intro hemp
      have hmem : r ∈ master.filter (fun x => rowKey x = k) := by
        rw [List.mem_filter]
        exact ⟨hr, by simp [hrk]⟩
      have hemp2 : master.filter (fun x => rowKey x = k) = [] := hemp
      rw [hemp2] at hmem
      cases hmem
  · cases hm : master with
    | nil => exact absurd hm hne
    | cons m0 mrest =>
      subst hm
      rfl

/-- Witness for C6: sorted group keys and the passthrough-then-merged
assembly on a concrete two-row table. -/
theorem claim_C6_witness :
    List.Pairwise (fun a b => strLe a b = true)
      ((groupByKey [c6RowB, c6RowA]).map Prod.fst) ∧
    process_duplicates svcNone none [c6RowB, c6RowA] =
      ((processGroups svcNone none (groupByKey [c6RowB, c6RowA]) 0).1 ++
       (processGroups svcNone none (groupByKey [c6RowB, c6RowA]) 0).2).map
        dropNormalizedName :=
  ⟨(claim_C6 svcNone none [c6RowB, c6RowA] (by simp)).1,
   (claim_C6 svcNone none [c6RowB, c6RowA] (by simp)).2.2⟩

/-- Counterexample to C6 as stated: with rows keyed `b` then `a`, the
output comes out in sorted order `a, b`, not first-seen order `b, a`. -/
theorem claim_C6_counterexample :
    process_duplicates svcNone none [c6RowB, c6RowA] =
      [dropNormalizedName c6RowA, dropNormalizedName c6RowB] ∧
    [dropNormalizedName c6RowA, dropNormalizedName c6RowB] ≠
      [dropNormalizedName c6RowB, dropNormalizedName c6RowA] := by
  refine ⟨rfl, ?_⟩
  intro h
  injection h with h1 _
  have h2 : alookup fullNameKey (dropNormalizedName c6RowA) = some (Json.str "a".toList) := rfl
  have h3 : alookup fullNameKey (dropNormalizedName c6RowB) = some (Json.str "b".toList) := rfl
  rw [h1] at h2
  have h4 := h2.symm.trans h3
  injection h4 with h5
  injection h5 with h6
  exact absurd h6 (by decide)

theorem alookup_mem {α : Type} {k : Str} {v : α} :
    ∀ {m : List (Str × α)}, alookup k m = some v → (k, v) ∈ m := by
  intro m
  induction m with
  | nil => intro h; cases h
  | cons kv rest ih =>
    intro h
    simp only [alookup] at h
    split at h
    · rename_i he
      injection h with h1
      obtain ⟨k2, v2⟩ := kv
      have hk : k2 = k := he
      have hv : v2 = v := h1
      rw [hk, hv]
      exact List.mem_cons_self _ _
    · exact List.mem_cons_of_mem _ (ih h)

theorem alookup_isSome_of_key {α : Type} {k : Str} :
    ∀ {m : List (Str × α)}, (∃ kv ∈ m, kv.1 = k) → ∃ v, alookup k m = some v := by
  intro m
  induction m with
  | nil => rintro ⟨kv, hm, _⟩; cases hm
  | cons kv0 rest ih =>
    rintro ⟨kv, hm, hk⟩
    simp only [alookup]
    by_cases h0 : kv0.1 = k
    · exact ⟨kv0.2, by rw [if_pos h0]⟩
    · rcases List.mem_cons.mp hm with h1 | h1
      · exact absurd (h1 ▸ hk) h0
      · obtain ⟨v, hv⟩ := ih ⟨kv, h1, hk⟩
        exact ⟨v, by rw [if_neg h0]; exact hv⟩

theorem colMapOf_lower {cols : List Str} {k c : Str}
    (h : alookup k (colMapOf cols) = some c) : c.map toLowerCh = k ∧ c ∈ cols := by
  have hmem := alookup_mem h
  unfold colMapOf at hmem
  rcases List.mem_map.mp hmem with ⟨c0, hc0, he⟩
  injection he with he1 he2
  rw [← he2]
  exact ⟨he1, List.mem_reverse.mp hc0⟩

theorem colMapOf_isSome {cols : List Str} {c : Str} (h : c ∈ cols) :
    ∃ c2, alookup (c.map toLowerCh) (colMapOf cols) = some c2 := by
  apply alookup_isSome_of_key
  refine ⟨(c.map toLowerCh, c), ?_, rfl⟩
  unfold colMapOf
  exact List.mem_map_of_mem _ (List.mem_reverse.mpr h)

theorem mem_dinsert {kv : Str × Str} {k v : Str} :
    ∀ {m : List (Str × Str)}, kv ∈ dinsert k v m → kv ∈ m ∨ kv = (k, v) := by
  intro m h
  unfold dinsert at h
  split at h
  · rcases List.mem_map.mp h with ⟨kv0, hkv0, he⟩
    by_cases hc : kv0.1 = k
    · rw [if_pos hc] at he
      exact Or.inr he.symm
    · rw [if_neg hc] at he
      exact Or.inl (he ▸ hkv0)
  · rcases List.mem_append.mp h with h1 | h1
    · exact Or.inl h1
    · exact Or.inr (List.mem_singleton.mp h1)

theorem alookup_map_update {k k2 v2 : Str} (hne : k2 ≠ k) :
    ∀ (m : List (Str × Str)),
    alookup k (m.map (fun kv => if kv.1 = k2 then (k2, v2) else kv)) = alookup k m := by
  intro m
  induction m with
  | nil => rfl
  | cons kv rest ih =>
    simp only [List.map_cons, alookup]
    by_cases he : kv.1 = k2
    · rw [if_pos he]
      simp only [alookup]
      rw [if_neg hne, if_neg (fun hc => hne (he ▸ hc))]
      exact ih
    · rw [if_neg he]
      by_cases hk : kv.1 = k
      · rw [if_pos hk, if_pos hk]
      · rw [if_neg hk, if_neg hk]
        exact ih

theorem alookup_append_single_ne {k k2 v2 : Str} (hne : k2 ≠ k) :
    ∀ (m : List (Str × Str)), alookup k (m ++ [(k2, v2)]) = alookup k m := by
  intro m
  induction m with
  | nil => simp [alookup, hne]
  | cons kv rest ih =>
    simp only [List.cons_append, alookup]
    by_cases hk : kv.1 = k
    · rw [if_pos hk, if_pos hk]
    · rw [if_neg hk, if_neg hk]
      exact ih

theorem alookup_dinsert_ne {k k2 v2 : Str} {m : List (Str × Str)} (hne : k2 ≠ k) :
    alookup k (dinsert k2 v2 m) = alookup k m := by
  unfold dinsert
  split
  · exact alookup_map_update hne m
  · exact alookup_append_single_ne hne m

theorem alookup_append_allne {α : Type} {k : Str} {m2 : List (Str × α)} :
    ∀ (m1 : List (Str × α)), (∀ kv ∈ m1, kv.1 ≠ k) →
    alookup k (m1 ++ m2) = alookup k m2 := by
  intro m1
  induction m1 with
  | nil => intro _; rfl
  | cons kv rest ih =>
    intro h
    simp only [List.cons_append, alookup]
    rw [if_neg (h kv (List.mem_cons_self _ _))]
    exact ih (fun kv2 h2 => h kv2 (List.mem_cons_of_mem _ h2))

theorem cand_not_common : ∀ cand ∈ fullnameCandidates, ∀ e ∈ commonMaps,
    cand ≠ e.1.map toLowerCh ∧ ∀ w ∈ e.2, cand ≠ w := by decide

theorem common_target_ne_fullname : ∀ e ∈ commonMaps, e.1 ≠ fullNameKey := by decide

theorem foldl_renames_preserve {cm : List (Str × Str)} {src : Str} :
    ∀ (l : List (Str × List Str)) (m : List (Str × Str)),
    alookup src m = some fullNameKey →
    (∀ e ∈ l, (∀ c2, alookup (e.1.map toLowerCh) cm = some c2 → c2 ≠ src) ∧
      (∀ w ∈ e.2, ∀ c2, alookup w cm = some c2 → c2 ≠ src)) →
    alookup src (l.foldl (fun r entry =>
      match alookup (entry.1.map toLowerCh) cm with
      | some c => dinsert c entry.1 r
      | none =>
        match entry.2.findSome? (fun var => alookup var cm) with
        | some c => dinsert c entry.1 r
        | none => r) m) = some fullNameKey := by
  intro l
  induction l with
  | nil => intro m hm _; exact hm
  | cons e l ih =>
    intro m hm hok
    have he := hok e (List.mem_cons_self _ _)
    simp only [List.foldl_cons]
    have hstep : alookup src (match alookup (e.1.map toLowerCh) cm with
        | some c => dinsert c e.1 m
        | none =>
          match e.2.findSome? (fun var => alookup var cm) with
          | some c => dinsert c e.1 m
          | none => m) = some fullNameKey := by
      cases hc : alookup (e.1.map toLowerCh) cm with
      | some c =>
        simp only [hc]
        rw [alookup_dinsert_ne (he.1 c hc)]
        exact hm
      | none =>
        simp only [hc]
        cases hv : e.2.findSome? (fun var => alookup var cm) with
        | some c =>
          simp only [hv]
          obtain ⟨w, hw, hwc⟩ := List.exists_of_findSome?_eq_some hv
          rw [alookup_dinsert_ne (he.2 w hw c hwc)]
          exact hm
        | none =>
          simp only [hv]
          exact hm
    exact ih _ hstep (fun e2 he2 => hok e2 (List.mem_cons_of_mem _ he2))

theorem foldl_renames_targets {cm : List (Str × Str)} {S : Str → Prop} :
    ∀ (l : List (Str × List Str)) (m : List (Str × Str)),
    (∀ kv ∈ m, S kv.2) → (∀ e ∈ l, S e.1) →
    ∀ kv ∈ (l.foldl (fun r entry =>
      match alookup (entry.1.map toLowerCh) cm with
      | some c => dinsert c entry.1 r
      | none =>
        match entry.2.findSome? (fun var => alookup var cm) with
        | some c => dinsert c entry.1 r
        | none => r) m), S kv.2 := by
  intro l
  induction l with
  | nil => intro m hm _; exact hm
  | cons e l ih =>
    intro m hm hl
    simp only [List.foldl_cons]
    apply ih
    · intro kv hkv
      have hS : S e.1 := hl e (List.mem_cons_self _ _)
      cases hc : alookup (e.1.map toLowerCh) cm with
      | some c =>
        rw [hc] at hkv
        simp only [] at hkv
        rcases mem_dinsert hkv with h1 | h1
        · exact hm kv h1
        · rw [h1]; exact hS
      | none =>
        rw [hc] at hkv
        cases hv : e.2.findSome? (fun var => alookup var cm) with
        | some c =>
          rw [hv] at hkv
          rcases mem_dinsert hkv with h1 | h1
          · exact hm kv h1
          · rw [h1]; exact hS
        | none =>
          rw [hv] at hkv
          exact hm kv hkv
    · exact fun e2 he2 => hl e2 (List.mem_cons_of_mem _ he2)

theorem firstFullname_elim {cm : List (Str × Str)} {src : Str}
    (h : firstFullnameSrc cm = some src) :
    ∃ cand ∈ fullnameCandidates, alookup cand cm = some src :=
  List.exists_of_findSome?_eq_some h

theorem renames_fullname {cols : List Str} {src : Str}
    (h : firstFullnameSrc (colMapOf cols) = some src) :
    alookup src (buildRenames cols) = some fullNameKey := by
  simp only [buildRenames, h]
  obtain ⟨cand, hcand, hlk⟩ := firstFullname_elim h
  obtain ⟨hsrcLower, _⟩ := colMapOf_lower hlk
  apply foldl_renames_preserve
  · show alookup src (dinsert src fullNameKey []) = some fullNameKey
    simp [dinsert, alookup]
  · intro e he
    have hdis := cand_not_common cand hcand e he
    constructor
    · intro c2 hc2 hcon
      obtain ⟨hc2Lower, _⟩ := colMapOf_lower hc2
      rw [hcon, hsrcLower] at hc2Lower
      exact hdis.1 hc2Lower
    · intro w hw c2 hc2 hcon
      obtain ⟨hc2Lower, _⟩ := colMapOf_lower hc2
      rw [hcon, hsrcLower] at hc2Lower
      exact hdis.2 w hw hc2Lower

theorem buildRenames_targets {cols : List Str}
    (hnone : firstFullnameSrc (colMapOf cols) = none) :
    ∀ kv ∈ buildRenames cols, ∃ e ∈ commonMaps, kv.2 = e.1 := by
  simp only [buildRenames, hnone]
  exact @foldl_renames_targets (colMapOf cols) (fun t => ∃ e ∈ commonMaps, t = e.1)
    commonMaps [] (fun kv hkv => absurd hkv (List.not_mem_nil kv)) (fun e he => ⟨e, he, rfl⟩)

theorem no_candidate_no_fullname {cols : List Str}
    (hnone : firstFullnameSrc (colMapOf cols) = none) {c : Str} (hc : c ∈ cols) :
    renameCol (buildRenames cols) c ≠ fullNameKey := by
  intro hcon
  cases hl : alookup c (buildRenames cols) with
  | some t =>
    have ht : renameCol (buildRenames cols) c = t := by
      unfold renameCol; rw [hl]
    rw [ht] at hcon
    subst hcon
    obtain ⟨e, he, hte⟩ := buildRenames_targets hnone _ (alookup_mem hl)
    exact common_target_ne_fullname e he hte.symm
  | none =>
    have ht : renameCol (buildRenames cols) c = c := by
      unfold renameCol; rw [hl]
    rw [ht] at hcon
    subst hcon
    obtain ⟨c2, hc2⟩ := colMapOf_isSome hc
    have hcands : ∀ cand ∈ fullnameCandidates, alookup cand (colMapOf cols) = none :=
      List.findSome?_eq_none_iff.mp hnone
    have hfn : alookup ("fullname".toList) (colMapOf cols) = none :=
      hcands _ (by decide)
    rw [show fullNameKey.map toLowerCh = "fullname".toList from by decide] at hc2
    rw [hfn] at hc2
    cases hc2

/-- C8: schema harmonization always yields records containing `FullName`:
when some source column matches a candidate (`fullname`, `full_name`,
`name`, `full name`, in priority order, case-insensitively) the first
match is renamed to `FullName` (and that source column exists), and when
no candidate matches, `FullName` is added with the empty-string value. -/
theorem claim_C8 (cols : List Str) (rows : List Dict) (hne : rows ≠ [])
    (hwf : ∀ r ∈ rows, r.map Prod.fst = cols) :
    (∀ r2 ∈ (standardize_columns cols rows).2, fullNameKey ∈ r2.map Prod.fst) ∧
    (firstFullnameSrc (colMapOf cols) = none →
      ∀ r2 ∈ (standardize_columns cols rows).2,
        alookup fullNameKey r2 = some (Json.str [])) ∧
    (∀ src, firstFullnameSrc (colMapOf cols) = some src →
      renameCol (buildRenames cols) src = fullNameKey ∧ src ∈ cols) := by
  cases rows with
  | nil => exact absurd rfl hne
  | cons r0 rrest =>
    refine ⟨?_, ?_, ?_⟩
    · intro r2 hr2
      simp only [standardize_columns] at hr2
      by_cases hany : ((cols.map (renameCol (buildRenames cols))).any
          (fun c => c = fullNameKey)) = true
      · rw [if_pos hany] at hr2
        replace hr2 : r2 ∈ (r0 :: rrest).map
            (fun r => r.map (fun kv => (renameCol (buildRenames cols) kv.1, kv.2))) := hr2
        rcases List.mem_map.mp hr2 with ⟨r, hr, hre⟩
        have hkeys : r2.map Prod.fst = cols.map (renameCol (buildRenames cols)) := by
          rw [← hre, List.map_map]
          have hcomp : (Prod.fst ∘ fun kv : Str × Json =>
              (renameCol (buildRenames cols) kv.1, kv.2)) =
              (renameCol (buildRenames cols)) ∘ Prod.fst := rfl
          rw [hcomp, ← List.map_map, hwf r hr]
        rw [hkeys]
        rcases List.any_eq_true.mp hany with ⟨x, hx, hxe⟩
        have hxf : x = fullNameKey := of_decide_eq_true hxe
        exact hxf ▸ hx
      · rw [if_neg hany] at hr2
        replace hr2 : r2 ∈ ((r0 :: rrest).map
            (fun r => r.map (fun kv => (renameCol (buildRenames cols) kv.1, kv.2)))).map
            (fun r => r ++ [(fullNameKey, Json.str [])]) := hr2
        rcases List.mem_map.mp hr2 with ⟨r, _, hre⟩
        rw [← hre, List.map_append]
        apply List.mem_append_right
        exact List.mem_singleton.mpr rfl
    · intro hnone r2 hr2
      simp only [standardize_columns] at hr2
      have hany : ((cols.map (renameCol (buildRenames cols))).any
          (fun c => c = fullNameKey)) = false := by
        rw [Bool.eq_false_iff]
        intro hcon
        rcases List.any_eq_true.mp hcon with ⟨x, hx, hxe⟩
        rcases List.mem_map.mp hx with ⟨c, hc, hce⟩
        have hxf : x = fullNameKey := of_decide_eq_true hxe
        exact no_candidate_no_fullname hnone hc (hce.trans hxf)
      rw [if_neg (by rw [hany]; exact Bool.false_ne_true)] at hr2
      replace hr2 : r2 ∈ ((r0 :: rrest).map
          (fun r => r.map (fun kv => (renameCol (buildRenames cols) kv.1, kv.2)))).map
          (fun r => r ++ [(fullNameKey, Json.str [])]) := hr2
      rcases List.mem_map.mp hr2 with ⟨r, hr, hre⟩
      rcases List.mem_map.mp hr with ⟨r1, hr1, hr1e⟩
      rw [← hre]
      have hkne : ∀ kv ∈ r, kv.1 ≠ fullNameKey := by
        intro kv hkv
        rw [← hr1e] at hkv
        rcases List.mem_map.mp hkv with ⟨kv0, hkv0, hkv0e⟩
        rw [← hkv0e]
        apply no_candidate_no_fullname hnone
        rw [← hwf r1 hr1]
        exact List.mem_map_of_mem _ hkv0
      rw [alookup_append_allne r hkne]
      simp [alookup]
    · intro src hsrc
      have hl := renames_fullname hsrc
      refine ⟨?_, ?_⟩
      · unfold renameCol
        rw [hl]
      · obtain ⟨cand, _, hlk⟩ := firstFullname_elim hsrc
        exact (colMapOf_lower hlk).2

/-- Witness for C8: columns `Name`, `Email Address` — the candidate `name`
matches and `Name` is renamed to `FullName`. -/
theorem claim_C8_witness :
    renameCol (buildRenames c8Cols) "Name".toList = fullNameKey ∧
    "Name".toList ∈ c8Cols :=
  (claim_C8 c8Cols c8Rows (by simp [c8Rows])
    (fun r hr => by rw [List.eq_of_mem_singleton hr]; rfl)).2.2 "Name".toList rfl
